import Mathlib

/-
Verification of the event sequencer of the Team-Mug miniproject
(`src/core/sequencer.py`, `src/models/types.py`, `src/mocks/mock_sequencer.py`).

Conventions of the embedding:
* Python `int` is modelled as `Int`; Python floor division `//` and
  modulo `%` (always used with a positive divisor in this code) are
  `Int.ediv` and `Int.emod`, which agree with Python on positive divisors.
* The Python float `magnitude` is modelled as `ℚ`.
* The hardware clock reads (`ticks_ms()`) are passed in as explicit `now`
  arguments; the module-level binding of `ticks_diff` (resolved by the
  source's `try: from utime import ... except ImportError: ...`) is passed
  as an explicit function argument `td` to the operations that use it.
* Python lists become `List`, `None`-able fields become `Option`.
-/

/-- Class `NoteEvent` from `models/types.py`: channel, track-relative timestamp
in ms, magnitude (velocity), optional pitch, optional duration. -/
structure NoteEvent where
  channel : Int
  timestamp_ms : Int
  magnitude : ℚ
  pitch : Option Int
  duration_ms : Option Int
deriving DecidableEq, Repr

instance : Inhabited NoteEvent := ⟨⟨0, 0, 0, none, none⟩⟩

/-- The CPython fallback `ticks_diff(a, b) = a - b` defined in the source's
`except ImportError` branch of `core/sequencer.py`. -/
def ticks_diff (a b : Int) : Int := a - b

/-- Modelled from the spec: `utime.ticks_diff`, bound by the source's
`try: from utime import ticks_ms, ticks_diff` branch, is not part of the
repository.  Per the spec the clock is an unsigned counter of a known bit
width `w`; a difference is computed modulo `2^w` and interpreted as a
signed forward interval, i.e. a value in `[-2^(w-1), 2^(w-1))`. -/
def utime_ticks_diff (w : Nat) (a b : Int) : Int :=
  (a - b + 2 ^ (w - 1)) % 2 ^ w - 2 ^ (w - 1)

/-- Helper `_quantize(t_ms, q_ms)` from `core/sequencer.py`:
round-half-up snapping of `t_ms` to the grid `q_ms` (Python
`int((t_ms + q_ms // 2) // q_ms) * q_ms`). -/
def _quantize (t_ms q_ms : Int) : Int :=
  if q_ms ≤ 0 then t_ms
  else ((t_ms + q_ms / 2) / q_ms) * q_ms

/-- Helper `_round_up(val, base)` from `core/sequencer.py`: smallest
multiple of `base` that is `≥ val` (Python `((val + base - 1) // base) * base`). -/
def _round_up (val base : Int) : Int :=
  if base ≤ 0 then val
  else ((val + base - 1) / base) * base

/-- Loop body of `_bisect_right_by_time`: binary search over `lo ≤ hi`
exactly as the Python `while lo < hi` loop.  Out-of-range reads cannot
occur on the call paths used (`lo ≤ mid < hi ≤ events.length`); `getD`
supplies the (never used) default. -/
def _bisect_loop (events : List NoteEvent) (t_ms : Int) (lo hi : Nat) : Nat :=
  if lo < hi then
    let mid := (lo + hi) / 2
    if (events.getD mid default).timestamp_ms ≤ t_ms then
      _bisect_loop events t_ms (mid + 1) hi
    else
      _bisect_loop events t_ms lo mid
  else lo
termination_by hi - lo
decreasing_by
  all_goals simp_wf
  all_goals omega

/-- Helper `_bisect_right_by_time(events, t_ms)` from `core/sequencer.py`:
rightmost insertion point preserving ascending `timestamp_ms` order. -/
def _bisect_right_by_time (events : List NoteEvent) (t_ms : Int) : Nat :=
  _bisect_loop events t_ms 0 events.length

/-- Python `list.insert(i, e)`: insert `e` before position `i`
(append when `i ≥ length`). -/
def _insert_at (l : List NoteEvent) (i : Nat) (e : NoteEvent) : List NoteEvent :=
  l.take i ++ e :: l.drop i

namespace Sequencer

/-- State code `Sequencer.IDLE`. -/
def IDLE : Nat := 0
/-- State code `Sequencer.RECORDING`. -/
def RECORDING : Nat := 1
/-- State code `Sequencer.PLAYING`. -/
def PLAYING : Nat := 2

end Sequencer

/-- The `Sequencer` object state from `core/sequencer.py` (fields without
the Python leading underscore). -/
structure Sequencer where
  state : Nat
  events : List NoteEvent
  bpm : Int
  quantize_ms : Int
  beats_per_bar : Int
  rec_t0_ms : Option Int
  loop : Bool
  play_t0_ms : Option Int
  last_tick_ms : Option Int
  play_idx : Nat
  track_len_ms : Int
deriving DecidableEq, Repr

namespace Sequencer

/-- Constructor `Sequencer.__init__(bpm, quantize_ms, beats_per_bar)`: note that only
`quantize_ms` and `beats_per_bar` are clamped here; `bpm` is stored as
`int(bpm)` unclamped. -/
def init (bpm quantize_ms beats_per_bar : Int) : Sequencer :=
  { state := IDLE
    events := []
    bpm := bpm
    quantize_ms := max 0 quantize_ms
    beats_per_bar := max 1 beats_per_bar
    rec_t0_ms := none
    loop := true
    play_t0_ms := none
    last_tick_ms := none
    play_idx := 0
    track_len_ms := 0 }

/-- Method `Sequencer._beat_ms()`: `60000 // max(1, bpm)`. -/
def _beat_ms (s : Sequencer) : Int := 60000 / max 1 s.bpm

/-- Timestamp of `events[-1]`, or `0` when the list is empty (the Python
`self._events[-1].timestamp_ms if self._events else 0` idiom). -/
def lastTimestamp (s : Sequencer) : Int :=
  match s.events.getLast? with
  | some e => e.timestamp_ms
  | none => 0

/-- Method `Sequencer.stop_playback()`. -/
def stop_playback (s : Sequencer) : Sequencer :=
  let s := if s.state = PLAYING then { s with state := IDLE } else s
  { s with play_t0_ms := none, last_tick_ms := none, play_idx := 0 }

/-- Method `Sequencer.start_recording()`; `now` is the `ticks_ms()` read. -/
def start_recording (s : Sequencer) (now : Int) : Sequencer :=
  let s := stop_playback s
  { s with events := [], rec_t0_ms := some now, state := RECORDING,
           track_len_ms := 0 }

/-- Method `Sequencer.stop_recording()`. -/
def stop_recording (s : Sequencer) : Sequencer :=
  if s.state ≠ RECORDING then s
  else
    let last_t := lastTimestamp s
    let beat_ms := _beat_ms s
    let bar_ms := beat_ms * s.beats_per_bar
    { s with state := IDLE,
             track_len_ms := if s.loop then _round_up last_t bar_ms else last_t }

/-- The `NoteEvent` that `Sequencer.record_event` builds and stores (its
timestamp is `ticks_diff(now, rec_t0)`, quantized when `quantize_ms > 0`;
all other fields are copied from the input `event`). -/
def recordedEvent (td : Int → Int → Int) (s : Sequencer) (event : NoteEvent)
    (now t0 : Int) : NoteEvent :=
  let rel := td now t0
  let e : NoteEvent :=
    { channel := event.channel
      timestamp_ms := rel
      magnitude := event.magnitude
      pitch := event.pitch
      duration_ms := event.duration_ms }
  if s.quantize_ms > 0 then
    { e with timestamp_ms := _quantize e.timestamp_ms s.quantize_ms }
  else e

/-- Method `Sequencer.record_event(event)`; `now` is the `ticks_ms()` read and
`td` the module binding of `ticks_diff`. -/
def record_event (td : Int → Int → Int) (s : Sequencer) (event : NoteEvent)
    (now : Int) : Sequencer :=
  if s.state ≠ RECORDING then s
  else
    match s.rec_t0_ms with
    | none => s
    | some t0 =>
      let e := recordedEvent td s event now t0
      if s.events = [] ∨ e.timestamp_ms ≥ lastTimestamp s then
        { s with events := s.events ++ [e] }
      else
        let i := _bisect_right_by_time s.events e.timestamp_ms
        { s with events := _insert_at s.events i e }

/-- Method `Sequencer.start_playback(loop)`; `now` is the `ticks_ms()` read. -/
def start_playback (s : Sequencer) (loop : Bool) (now : Int) : Sequencer :=
  let s := { s with loop := loop, play_idx := 0, play_t0_ms := some now,
                    last_tick_ms := some now }
  let s := if s.track_len_ms ≤ 0 then { s with track_len_ms := lastTimestamp s }
           else s
  { s with state := PLAYING }

/-- The `while` loop of the non-looping branch of `tick`: collect
`events[idx]` while `timestamp_ms ≤ elapsed`, returning the collected
events and the final index. -/
def _advance (events : List NoteEvent) (elapsed : Int) (idx : Nat) :
    List NoteEvent × Nat :=
  if h : idx < events.length then
    if (events.get ⟨idx, h⟩).timestamp_ms ≤ elapsed then
      let r := _advance events elapsed (idx + 1)
      ((events.get ⟨idx, h⟩) :: r.1, r.2)
    else ([], idx)
  else ([], idx)
termination_by events.length - idx
decreasing_by
  simp_wf
  omega

/-- Method `Sequencer.tick(now_ms)` with an explicit `now` argument (the Python
`now_ms=None` default substitutes a `ticks_ms()` read, modelled by the
caller passing that value); `td` is the module binding of `ticks_diff`.
Returns the due-event batch and the successor state. -/
def tick (td : Int → Int → Int) (s : Sequencer) (now : Int) :
    List NoteEvent × Sequencer :=
  if s.state ≠ PLAYING then ([], s)
  else
    match s.play_t0_ms with
    | none => ([], s)
    | some t0 =>
      let prev_last := s.last_tick_ms.getD now
      let s := { s with last_tick_ms := some now }
      if s.events = [] then
        if s.loop ∧ s.track_len_ms > 0 then
          let elapsed := td now t0
          if elapsed ≥ s.track_len_ms then
            let loops := elapsed / s.track_len_ms
            ([], { s with play_t0_ms := some (t0 + loops * s.track_len_ms) })
          else ([], s)
        else ([], s)
      else
        let elapsed := td now t0
        if s.loop ∧ s.track_len_ms > 0 then
          let t_in := elapsed % s.track_len_ms
          let prev_in := td prev_last t0 % s.track_len_ms
          if t_in ≥ prev_in then
            let start_idx := _bisect_right_by_time s.events prev_in
            let end_idx := _bisect_right_by_time s.events t_in
            ((s.events.take end_idx).drop start_idx,
             { s with play_idx := _bisect_right_by_time s.events t_in })
          else
            (s.events.drop (_bisect_right_by_time s.events prev_in)
               ++ s.events.take (_bisect_right_by_time s.events t_in),
             { s with play_idx := _bisect_right_by_time s.events t_in })
        else
          let r := _advance s.events elapsed s.play_idx
          let s := { s with play_idx := r.2 }
          if r.2 ≥ s.events.length ∧ s.loop = false then
            (r.1, stop_playback s)
          else (r.1, s)

/-- Method `Sequencer.set_bpm(bpm)`: clamps to `≥ 1`. -/
def set_bpm (s : Sequencer) (bpm : Int) : Sequencer :=
  { s with bpm := max 1 bpm }

/-- Method `Sequencer.set_quantize(quantize_ms)`: clamps to `≥ 0`. -/
def set_quantize (s : Sequencer) (quantize_ms : Int) : Sequencer :=
  { s with quantize_ms := max 0 quantize_ms }

/-- Iterate `tick` over a list of `now` values, concatenating the
returned batches in call order. -/
def runTicks (td : Int → Int → Int) (s : Sequencer) (nows : List Int) :
    List NoteEvent × Sequencer :=
  match nows with
  | [] => ([], s)
  | n :: rest =>
    let r := tick td s n
    let r2 := runTicks td r.2 rest
    (r.1 ++ r2.1, r2.2)

end Sequencer

/-- A storage row `[t, ch, mag, pitch, dur]` as produced by
`NoteEvent.to_row` in `models/types.py`. -/
structure Row where
  timestamp_ms : Int
  channel : Int
  magnitude : ℚ
  pitch : Option Int
  duration_ms : Option Int
deriving DecidableEq, Repr

/-- Python `round(x, 4)` on the rational model of the float `magnitude`.
Python rounds ties to even while `round` here rounds ties half-up; the two
agree whenever `x * 10000` is not exactly a half-integer, in particular on
every magnitude with at most 4 decimal places. -/
def _round4 (x : ℚ) : ℚ := ((round (x * 10000) : Int) : ℚ) / 10000

/-- Method `NoteEvent.to_row` from `models/types.py`: compact list form
`[t, ch, round(mag, 4), pitch, dur]`. -/
def NoteEvent.to_row (e : NoteEvent) : Row :=
  { timestamp_ms := e.timestamp_ms
    channel := e.channel
    magnitude := _round4 e.magnitude
    pitch := e.pitch
    duration_ms := e.duration_ms }

/-- Static method `NoteEvent.from_row` from `models/types.py`. -/
def NoteEvent.from_row (r : Row) : NoteEvent :=
  { channel := r.channel
    timestamp_ms := r.timestamp_ms
    magnitude := r.magnitude
    pitch := r.pitch
    duration_ms := r.duration_ms }

/-- The `MockSequencer` object state from `mocks/mock_sequencer.py`
(fields without the Python leading underscore). -/
structure MockSequencer where
  events : List NoteEvent
  recording : Bool
  playing : Bool
  bpm : Int
  channels : Int
deriving DecidableEq, Repr

namespace MockSequencer

/-- Method `MockSequencer.export_events_rows()`. -/
def export_events_rows (m : MockSequencer) : List Row :=
  m.events.map NoteEvent.to_row

/-- Method `MockSequencer.import_events_rows(rows)`: replaces the event list and
nothing else (the mock stores no track length and leaves the
recording/playing flags untouched). -/
def import_events_rows (m : MockSequencer) (rows : List Row) : MockSequencer :=
  { m with events := rows.map NoteEvent.from_row }

end MockSequencer

/-! ### Proof layer: ordering, counting and slicing lemmas -/

/-- The Boolean predicate "timestamp at most `x`". -/
def tleq (x : Int) : NoteEvent → Bool := fun e => decide (e.timestamp_ms ≤ x)

/-- The Boolean predicate "timestamp greater than `x`". -/
def tgt (x : Int) : NoteEvent → Bool := fun e => decide (x < e.timestamp_ms)

/-- The sorted-by-ascending-timestamp invariant on the event list. -/
def SortedEvents (l : List NoteEvent) : Prop :=
  l.Pairwise (fun a b => a.timestamp_ms ≤ b.timestamp_ms)

lemma sortedEvents_cons {a : NoteEvent} {l : List NoteEvent} :
    SortedEvents (a :: l) ↔
      (∀ b ∈ l, a.timestamp_ms ≤ b.timestamp_ms) ∧ SortedEvents l := by
  simp [SortedEvents, List.pairwise_cons]

lemma sortedEvents_getD_mono {l : List NoteEvent} (hs : SortedEvents l)
    {i j : Nat} (hij : i ≤ j) (hj : j < l.length) :
    (l.getD i default).timestamp_ms ≤ (l.getD j default).timestamp_ms := by
  rcases Nat.eq_or_lt_of_le hij with rfl | hlt
  · exact le_refl _
  · rw [List.getD_eq_getElem _ _ (lt_trans hlt hj), List.getD_eq_getElem _ _ hj]
    exact List.pairwise_iff_getElem.mp hs i j (lt_trans hlt hj) hj hlt

lemma countP_tleq_eq_of_boundary (x : Int) :
    ∀ (k : Nat) (l : List NoteEvent), k ≤ l.length →
    (∀ i, i < k → (l.getD i default).timestamp_ms ≤ x) →
    (∀ i, k ≤ i → i < l.length → x < (l.getD i default).timestamp_ms) →
    l.countP (tleq x) = k := by
  intro k
  induction k with
  | zero =>
    intro l _ _ h2
    rw [List.countP_eq_zero]
    intro a ha
    obtain ⟨i, hi, rfl⟩ := List.mem_iff_getElem.mp ha
    have := h2 i (Nat.zero_le i) hi
    rw [List.getD_eq_getElem _ _ hi] at this
    simp [tleq]
    omega
  | succ k ih =>
    intro l hk h1 h2
    match l with
    | [] => simp at hk
    | a :: l =>
      have ha : a.timestamp_ms ≤ x := by
        have := h1 0 (Nat.succ_pos k)
        simpa using this
      have hta : tleq x a = true := by simp [tleq, ha]
      rw [List.countP_cons, hta]
      have : l.countP (tleq x) = k := by
        apply ih l (by simpa using hk)
        · intro i hi
          have := h1 (i + 1) (by omega)
          simpa using this
        · intro i hki hi
          have := h2 (i + 1) (by omega) (by simpa using Nat.succ_lt_succ hi)
          simpa using this
      simp [this]

lemma _bisect_loop_eq_countP {l : List NoteEvent} (hs : SortedEvents l) (x : Int) :
    ∀ (n lo hi : Nat), hi - lo ≤ n → lo ≤ hi → hi ≤ l.length →
    (∀ i, i < lo → (l.getD i default).timestamp_ms ≤ x) →
    (∀ i, hi ≤ i → i < l.length → x < (l.getD i default).timestamp_ms) →
    _bisect_loop l x lo hi = l.countP (tleq x) := by
  intro n
  induction n with
  | zero =>
    intro lo hi hn hlo hhi h1 h2
    have : lo = hi := by omega
    subst this
    rw [_bisect_loop]
    simp only [lt_irrefl, if_false]
    exact (countP_tleq_eq_of_boundary x lo l hhi h1 (fun i hi1 hi2 => h2 i hi1 hi2)).symm
  | succ n ih =>
    intro lo hi hn hlo hhi h1 h2
    rw [_bisect_loop]
    by_cases hlt : lo < hi
    · simp only [hlt, if_true]
      set mid := (lo + hi) / 2 with hmid
      have hmlo : lo ≤ mid := by omega
      have hmhi : mid < hi := by omega
      by_cases hcmp : (l.getD mid default).timestamp_ms ≤ x
      · simp only [hcmp, if_true]
        apply ih (mid + 1) hi (by omega) (by omega) hhi
        · intro i hi1
          exact le_trans (sortedEvents_getD_mono hs (by omega) (by omega)) hcmp
        · exact h2
      · simp only [hcmp, if_false]
        apply ih lo mid (by omega) (by omega) (by omega)
        · exact h1
        · intro i hi1 hi2
          exact lt_of_not_le fun hc =>
            hcmp (le_trans (sortedEvents_getD_mono hs hi1 hi2) hc)
    · simp only [hlt, if_false]
      have : lo = hi := by omega
      subst this
      exact (countP_tleq_eq_of_boundary x lo l hhi h1 (fun i hi1 hi2 => h2 i hi1 hi2)).symm

/-- On a sorted event list the binary search `_bisect_right_by_time` returns
the number of events with timestamp `≤ t`, i.e. the rightmost insertion
point. -/
lemma bisect_eq_countP {l : List NoteEvent} (hs : SortedEvents l) (x : Int) :
    _bisect_right_by_time l x = l.countP (tleq x) := by
  apply _bisect_loop_eq_countP hs x l.length 0 l.length (by omega) (by omega) (le_refl _)
  · intro i hi
    omega
  · intro i hi1 hi2
    omega

lemma take_countP_eq_filter {l : List NoteEvent} (hs : SortedEvents l) (x : Int) :
    l.take (l.countP (tleq x)) = l.filter (tleq x) := by
  induction l with
  | nil => simp
  | cons a l ih =>
    obtain ⟨ha, hl⟩ := sortedEvents_cons.mp hs
    by_cases hax : a.timestamp_ms ≤ x
    · have hta : tleq x a = true := by simp [tleq, hax]
      rw [List.countP_cons, hta]
      simp only [if_true, List.take_succ_cons, List.filter_cons, hta, ih hl]
    · have hta : tleq x a = false := by simp [tleq]; omega
      have hzero : (a :: l).countP (tleq x) = 0 := by
        rw [List.countP_eq_zero]
        intro b hb
        rcases List.mem_cons.mp hb with rfl | hbl
        · simp [hta]
        · have := ha b hbl
          simp [tleq]
          omega
      rw [hzero]
      have : (a :: l).filter (tleq x) = [] := by
        rw [List.filter_eq_nil_iff]
        intro b hb
        rcases List.mem_cons.mp hb with rfl | hbl
        · simp [hta]
        · have := ha b hbl
          simp [tleq]
          omega
      simp [this]

lemma drop_countP_eq_filter {l : List NoteEvent} (hs : SortedEvents l) (x : Int) :
    l.drop (l.countP (tleq x)) = l.filter (tgt x) := by
  induction l with
  | nil => simp
  | cons a l ih =>
    obtain ⟨ha, hl⟩ := sortedEvents_cons.mp hs
    by_cases hax : a.timestamp_ms ≤ x
    · have hta : tleq x a = true := by simp [tleq, hax]
      have htg : tgt x a = false := by simp [tgt]; omega
      rw [List.countP_cons, hta]
      simp only [if_true, List.drop_succ_cons, List.filter_cons, htg, ih hl]
      simp
    · have hta : tleq x a = false := by simp [tleq]; omega
      have hzero : (a :: l).countP (tleq x) = 0 := by
        rw [List.countP_eq_zero]
        intro b hb
        rcases List.mem_cons.mp hb with rfl | hbl
        · simp [hta]
        · have := ha b hbl
          simp [tleq]
          omega
      rw [hzero, List.drop_zero]
      have : (a :: l).filter (tgt x) = a :: l := by
        rw [List.filter_eq_self]
        intro b hb
        rcases List.mem_cons.mp hb with rfl | hbl
        · simp [tgt]; omega
        · have := ha b hbl
          simp [tgt]
          omega
      rw [this]

lemma countP_tleq_mono (l : List NoteEvent) {x y : Int} (hxy : x ≤ y) :
    l.countP (tleq x) ≤ l.countP (tleq y) := by
  apply List.countP_mono_left
  intro a _ hax
  simp only [tleq, decide_eq_true_eq] at hax ⊢
  omega

/-- Gluing adjacent slices: `l[n1:n2] ++ l[n2:n3] = l[n1:n3]`. -/
lemma slice_glue (l : List NoteEvent) {n1 n2 n3 : Nat}
    (h12 : n1 ≤ n2) (h23 : n2 ≤ n3) (h2l : n2 ≤ l.length) :
    (l.take n2).drop n1 ++ (l.take n3).drop n2 = (l.take n3).drop n1 := by
  have hA : l.take n2 = (l.take n3).take n2 := by
    rw [List.take_take, Nat.min_eq_left h23]
  have hlen : ((l.take n3).take n2).length = n2 := by
    simp [List.length_take]
    omega
  rw [hA]
  calc ((l.take n3).take n2).drop n1 ++ (l.take n3).drop n2
      = ((l.take n3).take n2).drop n1
          ++ ((l.take n3).drop n2).drop (n1 - ((l.take n3).take n2).length) := by
        rw [hlen]
        have : n1 - n2 = 0 := by omega
        rw [this, List.drop_zero]
    _ = (((l.take n3).take n2) ++ ((l.take n3).drop n2)).drop n1 := by
        rw [List.drop_append_eq_append_drop]
    _ = (l.take n3).drop n1 := by rw [List.take_append_drop]

/-- Gluing a slice with the final segment: `l[n1:n2] ++ l[n2:] = l[n1:]`. -/
lemma slice_glue_final (l : List NoteEvent) {n1 n2 : Nat}
    (h12 : n1 ≤ n2) (h2l : n2 ≤ l.length) :
    (l.take n2).drop n1 ++ l.drop n2 = l.drop n1 := by
  have h : (l.take n2).drop n1 ++ (l.take l.length).drop n2
      = (l.take l.length).drop n1 := slice_glue l h12 h2l h2l
  rw [List.take_length] at h
  exact h

lemma _advance_eq_aux (l : List NoteEvent) (e : Int) :
    ∀ (n idx : Nat), l.length - idx ≤ n →
    Sequencer._advance l e idx =
      ((l.drop idx).takeWhile (tleq e),
       idx + ((l.drop idx).takeWhile (tleq e)).length) := by
  intro n
  induction n with
  | zero =>
    intro idx hn
    rw [Sequencer._advance]
    have hge : ¬ idx < l.length := by omega
    rw [dif_neg hge]
    have : l.drop idx = [] := List.drop_eq_nil_of_le (by omega)
    simp [this]
  | succ n ih =>
    intro idx hn
    rw [Sequencer._advance]
    by_cases h : idx < l.length
    · rw [dif_pos h]
      have hdrop : l.drop idx = l[idx] :: l.drop (idx + 1) :=
        List.drop_eq_getElem_cons h
      have hget : l.get ⟨idx, h⟩ = l[idx] := rfl
      by_cases hle : (l.get ⟨idx, h⟩).timestamp_ms ≤ e
      · rw [if_pos hle]
        have htw : tleq e l[idx] = true := by
          simp [tleq]
          rw [← hget]
          exact hle
        rw [ih (idx + 1) (by omega)]
        rw [hdrop, List.takeWhile_cons_of_pos htw]
        simp [hget]
        omega
      · rw [if_neg hle]
        have htw : tleq e l[idx] = false := by
          simp [tleq]
          rw [← hget]
          omega
        rw [hdrop, List.takeWhile_cons_of_neg (by simp [htw])]
        simp
    · rw [dif_neg h]
      have : l.drop idx = [] := List.drop_eq_nil_of_le (by omega)
      simp [this]

/-- The `while` loop of the non-looping tick branch collects exactly the
consecutive run of events from `idx` whose timestamp is `≤ elapsed`, and
advances the cursor by the length of that run. -/
lemma _advance_eq (l : List NoteEvent) (e : Int) (idx : Nat) :
    Sequencer._advance l e idx =
      ((l.drop idx).takeWhile (tleq e),
       idx + ((l.drop idx).takeWhile (tleq e)).length) :=
  _advance_eq_aux l e l.length idx (by omega)

lemma pairwise_lt_le_getLast :
    ∀ (l : List Int) (h : l ≠ []), l.Pairwise (· < ·) →
      ∀ a ∈ l, a ≤ l.getLast h := by
  intro l
  induction l with
  | nil => intro h; simp at h
  | cons x l ih =>
    intro h hp a ha
    match l with
    | [] =>
      simp at ha
      simp [ha]
    | y :: l2 =>
      rw [List.getLast_cons (List.cons_ne_nil y l2)]
      rcases List.mem_cons.mp ha with rfl | hal
      · have hx : ∀ b ∈ y :: l2, a < b := (List.pairwise_cons.mp hp).1
        exact le_of_lt (hx _ (List.getLast_mem (List.cons_ne_nil y l2)))
      · exact ih (List.cons_ne_nil y l2) (List.pairwise_cons.mp hp).2 a hal

/-- For positive `b`, `_round_up v b` is the smallest multiple of `b`
that is `≥ v`. -/
lemma _round_up_spec (v b : Int) (hb : 0 < b) :
    v ≤ _round_up v b ∧ _round_up v b < v + b ∧ b ∣ _round_up v b := by
  unfold _round_up
  rw [if_neg (by omega)]
  have h1 := Int.ediv_add_emod (v + b - 1) b
  have h2 : 0 ≤ (v + b - 1) % b := Int.emod_nonneg _ (by omega)
  have h3 := Int.emod_lt_of_pos (v + b - 1) hb
  refine ⟨?_, ?_, Dvd.intro _ (Int.mul_comm _ _)⟩
  · rw [Int.mul_comm]
    linarith
  · rw [Int.mul_comm]
    linarith

/-- The spec-modelled `utime.ticks_diff` recovers the true forward
interval `d` across wraparound of the `2^w` counter, for any
`0 ≤ d < 2^(w-1)`. -/
lemma utime_ticks_diff_wrap (w : Nat) (hw : 0 < w) (t0 d : Int)
    (hd0 : 0 ≤ d) (hd : d < 2 ^ (w - 1)) :
    utime_ticks_diff w ((t0 + d) % 2 ^ w) (t0 % 2 ^ w) = d := by
  unfold utime_ticks_diff
  have hP : (2 : Int) ^ w = 2 ^ (w - 1) * 2 := by
    rw [← pow_succ]
    congr 1
    omega
  have hH : (0 : Int) < 2 ^ (w - 1) := by positivity
  have ha : Int.ModEq (2 ^ w) ((t0 + d) % 2 ^ w) (t0 + d) :=
    Int.emod_emod_of_dvd _ dvd_rfl
  have hb : Int.ModEq (2 ^ w) (t0 % 2 ^ w) t0 :=
    Int.emod_emod_of_dvd _ dvd_rfl
  have hsum : Int.ModEq (2 ^ w)
      ((t0 + d) % 2 ^ w - t0 % 2 ^ w + 2 ^ (w - 1))
      (d + 2 ^ (w - 1)) := by
    have := (ha.sub hb).add_right ((2 : Int) ^ (w - 1))
    have harith : t0 + d - t0 = d := by omega
    rwa [harith] at this
  have heq : ((t0 + d) % 2 ^ w - t0 % 2 ^ w + 2 ^ (w - 1)) % 2 ^ w
      = (d + 2 ^ (w - 1)) % 2 ^ w := hsum
  rw [heq, Int.emod_eq_of_lt (by omega) (by omega)]
  omega

/-- Evaluation of `tick` in the looping branch (state PLAYING, events
nonempty, loop enabled, positive track length): the batch is the
`(prev_in, t_in]` slice, or the tail-then-head pair of slices on a wrap,
and the new state records `last_tick_ms = now` and the advisory cursor. -/
lemma tick_loop_branch (td : Int → Int → Int) (s : Sequencer) (now t0 pl : Int)
    (hst : s.state = Sequencer.PLAYING) (hpt : s.play_t0_ms = some t0)
    (hlt : s.last_tick_ms = some pl) (hne : s.events ≠ [])
    (hloop : s.loop = true) (hL : 0 < s.track_len_ms) :
    Sequencer.tick td s now =
      (if td pl t0 % s.track_len_ms ≤ td now t0 % s.track_len_ms then
         (s.events.take
             (_bisect_right_by_time s.events (td now t0 % s.track_len_ms))).drop
           (_bisect_right_by_time s.events (td pl t0 % s.track_len_ms))
       else
         s.events.drop
             (_bisect_right_by_time s.events (td pl t0 % s.track_len_ms))
           ++ s.events.take
             (_bisect_right_by_time s.events (td now t0 % s.track_len_ms)),
       { s with last_tick_ms := some now,
                play_idx :=
                  _bisect_right_by_time s.events (td now t0 % s.track_len_ms) }) := by
  obtain ⟨st, ev, bp, qz, bb, rt, lpf, pt, lt, pi, tl⟩ := s
  simp only at hst hpt hlt hne hloop hL
  subst hst hpt hlt hloop
  simp only [Sequencer.tick, ne_eq, not_true_eq_false, if_false, Option.getD_some,
    if_neg hne, hL, and_true, if_true, ge_iff_le]
  by_cases hc : td pl t0 % tl ≤ td now t0 % tl
  · simp [hc]
  · simp [hc]

/-- Running a strictly increasing sequence of in-pass ticks (all elapsed
phases below the track length) under the non-wrapping clock model delivers
exactly the slice of events with timestamps in `(p, last]`. -/
lemma runTicks_loop_segment
    (l : List NoteEvent) (L c0 : Int) (hs : SortedEvents l) (hne : l ≠ [])
    (hL : 0 < L) :
    ∀ (es : List Int) (p : Int) (s : Sequencer),
      s.state = Sequencer.PLAYING → s.events = l → s.loop = true →
      s.track_len_ms = L → s.play_t0_ms = some c0 →
      s.last_tick_ms = some (c0 + p) →
      0 ≤ p → p < L → List.Chain' (· < ·) (p :: es) → (∀ e ∈ es, e < L) →
      Sequencer.runTicks ticks_diff s (es.map (fun e => c0 + e)) =
        ((l.take (l.countP (tleq ((p :: es).getLast (List.cons_ne_nil p es))))).drop
            (l.countP (tleq p)),
         if es = [] then s
         else { s with
                  last_tick_ms :=
                    some (c0 + (p :: es).getLast (List.cons_ne_nil p es)),
                  play_idx :=
                    l.countP (tleq ((p :: es).getLast (List.cons_ne_nil p es))) }) := by
  intro es
  induction es with
  | nil =>
    intro p s hst hev hloop htl hpt hlt hp0 hpL hch hmem
    simp only [List.map_nil, Sequencer.runTicks, List.getLast_singleton, if_true]
    have : (l.take (l.countP (tleq p))).drop (l.countP (tleq p)) = [] :=
      List.drop_eq_nil_of_le (by simp [List.length_take])
    rw [this]
  | cons e rest ih =>
    intro p s hst hev hloop htl hpt hlt hp0 hpL hch hmem
    obtain ⟨st, ev, bp, qz, bb, rt, lpf, pt, lt, pi, tl⟩ := s
    simp only at hst hev hloop htl hpt hlt
    subst hst hev hloop htl hpt hlt
    have hpe : p < e := (List.chain'_cons.mp hch).1
    have hchrest : List.Chain' (· < ·) (e :: rest) := (List.chain'_cons.mp hch).2
    have heL : e < tl := hmem e (List.mem_cons_self e rest)
    have he0 : 0 ≤ e := le_trans hp0 (le_of_lt hpe)
    -- evaluate the first tick
    have htick := tick_loop_branch ticks_diff
      (Sequencer.mk Sequencer.PLAYING ev bp qz bb rt true (some c0)
        (some (c0 + p)) pi tl)
      (c0 + e) c0 (c0 + p) rfl rfl rfl hne rfl hL
    have hdnow : ticks_diff (c0 + e) c0 = e := by simp [ticks_diff]
    have hdpl : ticks_diff (c0 + p) c0 = p := by simp [ticks_diff]
    simp only [hdnow, hdpl] at htick
    rw [Int.emod_eq_of_lt he0 heL, Int.emod_eq_of_lt hp0 hpL] at htick
    rw [if_pos (le_of_lt hpe)] at htick
    simp only [bisect_eq_countP hs] at htick
    -- unfold one step of runTicks
    simp only [List.map_cons, Sequencer.runTicks]
    rw [htick]
    dsimp only
    -- apply the induction hypothesis to the successor state
    have hres := ih e
      (Sequencer.mk Sequencer.PLAYING ev bp qz bb rt true (some c0)
        (some (c0 + e)) (ev.countP (tleq e)) tl)
      rfl rfl rfl rfl rfl rfl
      he0 heL hchrest (fun x hx => hmem x (List.mem_cons_of_mem e hx))
    rw [hres]
    have hq : e ≤ (e :: rest).getLast (List.cons_ne_nil e rest) :=
      pairwise_lt_le_getLast (e :: rest) (List.cons_ne_nil e rest)
        (List.chain'_iff_pairwise.mp hchrest) e (List.mem_cons_self e rest)
    have hglue := slice_glue ev
      (countP_tleq_mono ev (le_of_lt hpe))
      (countP_tleq_mono ev hq)
      (List.countP_le_length (tleq e))
    rw [List.getLast_cons (List.cons_ne_nil e rest)]
    rw [if_neg (List.cons_ne_nil e rest)]
    simp only [Prod.mk.injEq]
    refine ⟨hglue, ?_⟩
    by_cases hrest : rest = []
    · subst hrest
      simp [List.getLast_singleton]
    · rw [if_neg hrest]

lemma runTicks_append (td : Int → Int → Int) (s : Sequencer) (xs ys : List Int) :
    Sequencer.runTicks td s (xs ++ ys) =
      ((Sequencer.runTicks td s xs).1
         ++ (Sequencer.runTicks td (Sequencer.runTicks td s xs).2 ys).1,
       (Sequencer.runTicks td (Sequencer.runTicks td s xs).2 ys).2) := by
  induction xs generalizing s with
  | nil => simp [Sequencer.runTicks]
  | cons x xs ih =>
    simp only [List.cons_append, Sequencer.runTicks]
    rw [show List.append xs ys = xs ++ ys from rfl, ih]
    simp [List.append_assoc]

lemma drop_append_take_perm (l : List NoteEvent) (n : Nat) :
    (l.drop n ++ l.take n).Perm l := by
  have h : (l.drop n ++ l.take n).Perm (l.take n ++ l.drop n) :=
    List.perm_append_comm
  rw [List.take_append_drop] at h
  exact h

/-- C1 (amended): for a looping playback started at clock `c0` over a sorted
nonempty event list, and tick calls at strictly increasing elapsed times
`mid ++ [L]` that cover one loop pass `(0, L]` with every inter-tick gap
smaller than the track length `L`, the concatenation of the returned
batches is exactly the rotation
`events with timestamp > 0 (ascending) ++ events with timestamp ≤ 0`,
hence a permutation of the recorded event set in which every event is
delivered exactly once.  Events with timestamp `0` are delivered by the
final boundary-crossing tick (the start of the next pass), after the
others — not inside the first pass. -/
theorem c1_exactly_once_per_loop_pass
    (s : Sequencer) (l : List NoteEvent) (L c0 : Int) (mid : List Int)
    (hst : s.state = Sequencer.PLAYING) (hev : s.events = l)
    (hloop : s.loop = true) (htl : s.track_len_ms = L)
    (hpt : s.play_t0_ms = some c0) (hlt : s.last_tick_ms = some c0)
    (hs : SortedEvents l) (hne : l ≠ [])
    (hch : List.Chain' (fun a b => a < b ∧ b - a < L) (0 :: (mid ++ [L]))) :
    (Sequencer.runTicks ticks_diff s ((mid ++ [L]).map (fun e => c0 + e))).1 =
        l.drop (l.countP (tleq 0)) ++ l.take (l.countP (tleq 0))
      ∧ (Sequencer.runTicks ticks_diff s ((mid ++ [L]).map (fun e => c0 + e))).1.Perm l := by
  have hch2 : List.Chain' (fun a b => a < b ∧ b - a < L) ((0 :: mid) ++ [L]) := by
    rwa [List.cons_append]
  obtain ⟨hc1, _, hlink⟩ := List.chain'_append.mp hch2
  have hqlast : (0 :: mid).getLast? = some ((0 :: mid).getLast (List.cons_ne_nil 0 mid)) :=
    List.getLast?_eq_getLast _ _
  have hRqL := hlink ((0 :: mid).getLast (List.cons_ne_nil 0 mid))
    (by rw [hqlast]; rfl) L rfl
  set q := (0 :: mid).getLast (List.cons_ne_nil 0 mid) with hqdef
  have hq0 : 0 < q := by omega
  have hqL : q < L := hRqL.1
  have hL0 : 0 < L := lt_trans hq0 hqL
  have hchlt : List.Chain' (· < ·) (0 :: mid) :=
    List.Chain'.imp (fun a b hab => hab.1) hc1
  have hmidlt : ∀ e ∈ mid, e < L := by
    intro e hemem
    have : e ≤ q :=
      pairwise_lt_le_getLast (0 :: mid) (List.cons_ne_nil 0 mid)
        (List.chain'_iff_pairwise.mp hchlt) e (List.mem_cons_of_mem 0 hemem)
    omega
  have hlt0 : s.last_tick_ms = some (c0 + 0) := by simpa using hlt
  have hseg := runTicks_loop_segment l L c0 hs hne hL0 mid 0 s
    hst hev hloop htl hpt hlt0 (le_refl 0) hL0 hchlt hmidlt
  rw [List.map_append, runTicks_append, hseg]
  -- `mid` cannot be empty: the single covering gap would equal `L`
  have hmid : mid ≠ [] := by
    intro hcon
    subst hcon
    simp only [List.getLast_singleton] at hqdef
    omega
  rw [if_neg hmid]
  -- evaluate the final, boundary-crossing tick
  have htick := tick_loop_branch ticks_diff
    { s with last_tick_ms := some (c0 + q), play_idx := l.countP (tleq q) }
    (c0 + L) c0 (c0 + q)
    (by simpa using hst) (by simpa using hpt) (by simp)
    (by simpa [hev] using hne) (by simpa using hloop) (by simpa [htl] using hL0)
  have hdnow : ticks_diff (c0 + L) c0 = L := by simp [ticks_diff]
  have hdpl : ticks_diff (c0 + q) c0 = q := by simp [ticks_diff]
  simp only [hdnow, hdpl] at htick
  rw [htl, hev] at htick
  rw [Int.emod_self, Int.emod_eq_of_lt (le_of_lt hq0) hqL] at htick
  rw [if_neg (by omega)] at htick
  simp only [bisect_eq_countP hs] at htick
  simp only [List.map_cons, List.map_nil, Sequencer.runTicks]
  rw [hev, htl, ← hqdef]
  rw [htick]
  dsimp only
  have hmono0q : l.countP (tleq 0) ≤ l.countP (tleq q) :=
    countP_tleq_mono l (le_of_lt hq0)
  have htotal :
      (l.take (l.countP (tleq q))).drop (l.countP (tleq 0))
        ++ (l.drop (l.countP (tleq q)) ++ l.take (l.countP (tleq 0)) ++ []) =
      l.drop (l.countP (tleq 0)) ++ l.take (l.countP (tleq 0)) := by
    rw [List.append_nil, ← List.append_assoc]
    rw [slice_glue_final l hmono0q (List.countP_le_length (tleq q))]
  constructor
  · exact htotal
  · rw [htotal]
    exact drop_append_take_perm l (l.countP (tleq 0))

/-! ### Concrete instances used by counterexamples and witnesses -/

/-- A note event at track-relative time 0. -/
def ev0 : NoteEvent := ⟨1, 0, 1, some 55, none⟩
/-- A note event at track-relative time 100. -/
def ev100 : NoteEvent := ⟨0, 100, 1, some 60, some 100⟩
/-- A note event at track-relative time 500. -/
def ev500 : NoteEvent := ⟨0, 500, 1, some 64, some 100⟩
/-- A note event at track-relative time 900. -/
def ev900 : NoteEvent := ⟨2, 900, 1, some 67, none⟩

/-- A playing, looping sequencer holding one event at 500 ms with a
1000 ms track, just started at clock 0 (`play_t0 = last_tick = 0`). -/
def c1CtrState : Sequencer :=
  ⟨Sequencer.PLAYING, [ev500], 120, 0, 4, none, true, some 0, some 0, 0, 1000⟩

/-- C1 (counterexample): a single `tick` whose `now` argument covers the
whole track span `(0, 1000]` at once (non-decreasing, no gaps, no
overlaps) returns the empty batch even though the recorded event set is
nonempty — the event at 500 ms is skipped, so the union of batches is not
the recorded set. -/
theorem c1_full_span_tick_delivers_nothing :
    (Sequencer.tick ticks_diff c1CtrState 1000).1 = []
      ∧ c1CtrState.events = [ev500] := by
  have hs : SortedEvents [ev500] := by
    simp [SortedEvents]
  have h := tick_loop_branch ticks_diff c1CtrState 1000 0 0 rfl rfl rfl
    (by simp [c1CtrState]) rfl (by norm_num [c1CtrState])
  refine ⟨?_, rfl⟩
  rw [h]
  have hev : c1CtrState.events = [ev500] := rfl
  have htl : c1CtrState.track_len_ms = 1000 := rfl
  rw [hev, htl]
  simp only [bisect_eq_countP hs]
  norm_num [ticks_diff]

/-- A playing, looping sequencer with events at 0 and 500 ms, track length
1000 ms, started at clock 0. -/
def c1WitState : Sequencer :=
  ⟨Sequencer.PLAYING, [ev0, ev500], 120, 0, 4, none, true, some 0, some 0, 0, 1000⟩

/-- Concrete instantiation of the amended exactly-once theorem: ticks at
600 and 1000 over a pass of the 1000 ms loop deliver the event at 500
during the pass and the event at 0 at the boundary tick, i.e. each event
exactly once. -/
theorem c1_exactly_once_witness :
    (Sequencer.runTicks ticks_diff c1WitState
        ((([600] ++ [1000]) : List Int).map (fun e => (0 : Int) + e))).1
      = [ev500, ev0]
    ∧ (Sequencer.runTicks ticks_diff c1WitState
        ((([600] ++ [1000]) : List Int).map (fun e => (0 : Int) + e))).1.Perm
        [ev0, ev500] := by
  have h := c1_exactly_once_per_loop_pass c1WitState [ev0, ev500] 1000 0 [600]
    rfl rfl rfl rfl rfl rfl
    (by simp [SortedEvents, ev0, ev500])
    (by simp)
    (by norm_num [List.chain'_cons])
  refine ⟨?_, h.2⟩
  rw [h.1]
  decide

/-- C2: loop-wrap extraction.  When `tick` runs in looping mode
(`loop = true`, `track_len_ms > 0`) on a sorted event list and the
loop-relative phases satisfy `t_in < prev_in`, the returned batch is
exactly the events with `timestamp_ms > prev_in` (the tail, ascending
because it is a filter of the sorted list) followed by the events with
`timestamp_ms ≤ t_in` (the head, ascending likewise): tail-then-head
temporal order across the wrap. -/
theorem c2_wrap_extraction (td : Int → Int → Int) (s : Sequencer)
    (now t0 pl : Int)
    (hst : s.state = Sequencer.PLAYING) (hpt : s.play_t0_ms = some t0)
    (hlt : s.last_tick_ms = some pl) (hne : s.events ≠ [])
    (hloop : s.loop = true) (hL : 0 < s.track_len_ms)
    (hs : SortedEvents s.events)
    (hwrap : td now t0 % s.track_len_ms < td pl t0 % s.track_len_ms) :
    (Sequencer.tick td s now).1 =
      s.events.filter (tgt (td pl t0 % s.track_len_ms))
        ++ s.events.filter (tleq (td now t0 % s.track_len_ms)) := by
  have h := tick_loop_branch td s now t0 pl hst hpt hlt hne hloop hL
  rw [h]
  rw [if_neg (not_le.mpr hwrap)]
  simp only [bisect_eq_countP hs]
  rw [drop_countP_eq_filter hs, take_countP_eq_filter hs]

/-- A playing, looping sequencer with events at 100, 500 and 900 ms over a
1000 ms track, started at clock 0, whose previous tick was at 850 ms. -/
def c2WitState : Sequencer :=
  ⟨Sequencer.PLAYING, [ev100, ev500, ev900], 120, 0, 4, none, true,
   some 0, some 850, 0, 1000⟩

/-- Concrete instantiation of the wrap extraction: a tick at 1150 ms
(phase 150) after a tick at 850 ms crosses the loop seam and returns the
tail event at 900 followed by the head event at 100. -/
theorem c2_wrap_extraction_witness :
    ticks_diff 1150 0 % c2WitState.track_len_ms
        < ticks_diff 850 0 % c2WitState.track_len_ms
      ∧ (Sequencer.tick ticks_diff c2WitState 1150).1 = [ev900, ev100] := by
  have hw : ticks_diff 1150 0 % c2WitState.track_len_ms
      < ticks_diff 850 0 % c2WitState.track_len_ms := by
    norm_num [ticks_diff, c2WitState]
  refine ⟨hw, ?_⟩
  have h := c2_wrap_extraction ticks_diff c2WitState 1150 0 850
    rfl rfl rfl (by simp [c2WitState]) rfl (by norm_num [c2WitState])
    (by norm_num [SortedEvents, c2WitState, List.pairwise_cons, ev100, ev500, ev900])
    hw
  rw [h]
  decide

lemma sortedEvents_le_getLast :
    ∀ (l : List NoteEvent) (h : l ≠ []), SortedEvents l →
      ∀ a ∈ l, a.timestamp_ms ≤ (l.getLast h).timestamp_ms := by
  intro l
  induction l with
  | nil => intro h; simp at h
  | cons x l ih =>
    intro h hp a ha
    match l with
    | [] =>
      simp at ha
      simp [ha]
    | y :: l2 =>
      rw [List.getLast_cons (List.cons_ne_nil y l2)]
      rcases List.mem_cons.mp ha with rfl | hal
      · have hx := (sortedEvents_cons.mp hp).1
        exact hx _ (List.getLast_mem (List.cons_ne_nil y l2))
      · exact ih (List.cons_ne_nil y l2) (sortedEvents_cons.mp hp).2 a hal

lemma insert_at_countP_sorted (l : List NoteEvent) (hs : SortedEvents l)
    (e : NoteEvent) :
    SortedEvents (l.take (l.countP (tleq e.timestamp_ms))
      ++ e :: l.drop (l.countP (tleq e.timestamp_ms))) := by
  have htake : ∀ a ∈ l.take (l.countP (tleq e.timestamp_ms)),
      a.timestamp_ms ≤ e.timestamp_ms := by
    intro a ha
    rw [take_countP_eq_filter hs] at ha
    have := (List.mem_filter.mp ha).2
    simpa [tleq] using this
  have hdrop : ∀ b ∈ l.drop (l.countP (tleq e.timestamp_ms)),
      e.timestamp_ms < b.timestamp_ms := by
    intro b hb
    rw [drop_countP_eq_filter hs] at hb
    have := (List.mem_filter.mp hb).2
    simpa [tgt] using this
  rw [SortedEvents, List.pairwise_append]
  refine ⟨List.Pairwise.sublist (List.take_sublist _ _) hs, ?_, ?_⟩
  · rw [List.pairwise_cons]
    refine ⟨fun b hb => le_of_lt (hdrop b hb),
      List.Pairwise.sublist (List.drop_sublist _ _) hs⟩
  · intro a ha b hb
    rcases List.mem_cons.mp hb with rfl | hbd
    · exact htake a ha
    · exact le_trans (htake a ha) (le_of_lt (hdrop b hbd))

lemma record_event_char (td : Int → Int → Int) (s : Sequencer)
    (ev : NoteEvent) (now t0 : Int)
    (hrec : s.state = Sequencer.RECORDING) (ht0 : s.rec_t0_ms = some t0)
    (hs : SortedEvents s.events) :
    (Sequencer.record_event td s ev now).events
      = s.events.take
          (s.events.countP
            (tleq (Sequencer.recordedEvent td s ev now t0).timestamp_ms))
        ++ (Sequencer.recordedEvent td s ev now t0)
          :: s.events.drop
            (s.events.countP
              (tleq (Sequencer.recordedEvent td s ev now t0).timestamp_ms)) := by
  set E := Sequencer.recordedEvent td s ev now t0 with hE
  simp only [Sequencer.record_event, hrec, ht0, ne_eq, not_true_eq_false, if_false]
  by_cases hbr : s.events = [] ∨ E.timestamp_ms ≥ Sequencer.lastTimestamp s
  · rw [if_pos (by rw [← hE]; exact hbr)]
    rcases hbr with hemp | hlast
    · simp [hemp]
    · by_cases hemp : s.events = []
      · simp [hemp]
      · have hcnt : s.events.countP (tleq E.timestamp_ms) = s.events.length := by
          rw [List.countP_eq_length]
          intro a ha
          have h1 := sortedEvents_le_getLast s.events hemp hs a ha
          have h2 : Sequencer.lastTimestamp s
              = (s.events.getLast hemp).timestamp_ms := by
            rw [Sequencer.lastTimestamp, List.getLast?_eq_getLast _ hemp]
          simp only [tleq, decide_eq_true_eq]
          rw [h2] at hlast
          omega
        rw [hcnt, List.take_length, List.drop_length]
  · rw [if_neg (by rw [← hE]; exact hbr)]
    simp only [bisect_eq_countP hs, _insert_at]

lemma record_event_sorted_step (td : Int → Int → Int) (s : Sequencer)
    (ev : NoteEvent) (now : Int) (hs : SortedEvents s.events) :
    SortedEvents (Sequencer.record_event td s ev now).events := by
  by_cases hrec : s.state = Sequencer.RECORDING
  · cases ht0 : s.rec_t0_ms with
    | none =>
      simp only [Sequencer.record_event, hrec, ht0, ne_eq, not_true_eq_false,
        if_false]
      exact hs
    | some t0 =>
      rw [record_event_char td s ev now t0 hrec ht0 hs]
      exact insert_at_countP_sorted s.events hs _
  · simp only [Sequencer.record_event, ne_eq, hrec, not_false_eq_true, if_true]
    exact hs

/-- C3: the sorted-list invariant.  Every `record_event` call preserves
ascending `timestamp_ms` order; when the call actually records (state
RECORDING with a recording origin), the stored event is placed after all
existing events with timestamp `≤` its own — the rightmost insertion
point, so equal-timestamp events keep insertion order and existing events
are never re-ordered; and consequently after any sequence of
`record_event` calls (arbitrary, including out-of-order timestamps) the
event list is still sorted. -/
theorem c3_sorted_stable_insert (td : Int → Int → Int) (s : Sequencer)
    (ev : NoteEvent) (now : Int) (hs : SortedEvents s.events) :
    SortedEvents (Sequencer.record_event td s ev now).events
    ∧ (∀ t0, s.state = Sequencer.RECORDING → s.rec_t0_ms = some t0 →
        (Sequencer.record_event td s ev now).events
          = s.events.take
              (s.events.countP
                (tleq (Sequencer.recordedEvent td s ev now t0).timestamp_ms))
            ++ (Sequencer.recordedEvent td s ev now t0)
              :: s.events.drop
                (s.events.countP
                  (tleq (Sequencer.recordedEvent td s ev now t0).timestamp_ms)))
    ∧ ∀ calls : List (NoteEvent × Int),
        SortedEvents
          ((calls.foldl
            (fun t pc => Sequencer.record_event td t pc.1 pc.2) s).events) := by
  refine ⟨record_event_sorted_step td s ev now hs, ?_, ?_⟩
  · intro t0 hrec ht0
    exact record_event_char td s ev now t0 hrec ht0 hs
  · intro calls
    induction calls generalizing s with
    | nil => exact hs
    | cons c rest ih =>
      exact ih (Sequencer.record_event td s c.1 c.2)
        (record_event_sorted_step td s c.1 c.2 hs)

/-- A recording sequencer (rec origin at clock 0, no quantization)
already holding events at 100 and 500 ms. -/
def c3WitState : Sequencer :=
  ⟨Sequencer.RECORDING, [ev100, ev500], 120, 0, 4, some 0, true,
   none, none, 0, 0⟩

/-- Concrete instantiation of the sorted-insert theorem: recording an
event at clock 300 inserts it between the events at 100 and 500, keeping
the list sorted. -/
theorem c3_sorted_stable_insert_witness :
    SortedEvents c3WitState.events
    ∧ (Sequencer.record_event ticks_diff c3WitState ev0 300).events
        = [ev100, Sequencer.recordedEvent ticks_diff c3WitState ev0 300 0, ev500]
    ∧ SortedEvents (Sequencer.record_event ticks_diff c3WitState ev0 300).events := by
  have hs : SortedEvents c3WitState.events := by
    norm_num [SortedEvents, c3WitState, List.pairwise_cons, ev100, ev500]
  have h := c3_sorted_stable_insert ticks_diff c3WitState ev0 300 hs
  refine ⟨hs, ?_, h.1⟩
  rw [h.2.1 0 rfl rfl]
  decide

/-- C4: `stop_recording` track-length policy.  In state RECORDING the
call moves to IDLE and sets `track_len_ms` to
`_round_up(last, beat_ms * beats_per_bar)` when the loop flag is true
(the smallest whole-bar multiple `≥` the last event's timestamp, when the
bar length is positive), and to exactly the last event's timestamp when
the loop flag is false; with no recorded events the track length is 0.
For `bpm ≥ 1` the beat length is `60000 / bpm` by integer division. -/
theorem c4_stop_recording_track_len (s : Sequencer)
    (hrec : s.state = Sequencer.RECORDING) :
    (Sequencer.stop_recording s).state = Sequencer.IDLE
    ∧ (Sequencer.stop_recording s).track_len_ms =
        (if s.loop then
          _round_up (Sequencer.lastTimestamp s)
            (Sequencer._beat_ms s * s.beats_per_bar)
         else Sequencer.lastTimestamp s)
    ∧ (1 ≤ s.bpm → Sequencer._beat_ms s = 60000 / s.bpm)
    ∧ (s.loop = true → 0 < Sequencer._beat_ms s * s.beats_per_bar →
        Sequencer.lastTimestamp s ≤ (Sequencer.stop_recording s).track_len_ms
        ∧ (Sequencer.stop_recording s).track_len_ms
            < Sequencer.lastTimestamp s + Sequencer._beat_ms s * s.beats_per_bar
        ∧ Sequencer._beat_ms s * s.beats_per_bar
            ∣ (Sequencer.stop_recording s).track_len_ms)
    ∧ (s.events = [] → (Sequencer.stop_recording s).track_len_ms = 0) := by
  have hunfold : Sequencer.stop_recording s =
      { s with state := Sequencer.IDLE,
               track_len_ms :=
                 if s.loop then
                   _round_up (Sequencer.lastTimestamp s)
                     (Sequencer._beat_ms s * s.beats_per_bar)
                 else Sequencer.lastTimestamp s } := by
    simp only [Sequencer.stop_recording, hrec, ne_eq, not_true_eq_false,
      if_false]
  rw [hunfold]
  refine ⟨rfl, rfl, ?_, ?_, ?_⟩
  · intro hbpm
    rw [Sequencer._beat_ms, max_eq_right hbpm]
  · intro hloop hbar
    rw [hloop]
    simp only [if_true]
    exact _round_up_spec _ _ hbar
  · intro hemp
    have hlast : Sequencer.lastTimestamp s = 0 := by
      rw [Sequencer.lastTimestamp, hemp]
      rfl
    rw [hlast]
    by_cases hloop : s.loop
    · rw [if_pos hloop]
      unfold _round_up
      by_cases hbar : Sequencer._beat_ms s * s.beats_per_bar ≤ 0
      · rw [if_pos hbar]
      · rw [if_neg hbar]
        rw [Int.zero_add, Int.ediv_eq_zero_of_lt (by omega) (by omega)]
        exact Int.zero_mul _
    · rw [if_neg hloop]

/-- A recording sequencer (bpm 120, 4 beats per bar, loop flag true)
whose last recorded event sits at 2300 ms. -/
def c4WitState : Sequencer :=
  ⟨Sequencer.RECORDING, [⟨0, 2300, 1, some 60, none⟩], 120, 0, 4, some 0,
   true, none, none, 0, 0⟩

/-- Concrete instantiation of the track-length policy: bpm=120
(beat 500 ms), 4 beats per bar (bar 2000 ms), loop on, last event at
2300 ms — `stop_recording` sets `track_len_ms = 4000` and state IDLE. -/
theorem c4_stop_recording_witness :
    (Sequencer.stop_recording c4WitState).track_len_ms = 4000
    ∧ (Sequencer.stop_recording c4WitState).state = Sequencer.IDLE := by
  have h := c4_stop_recording_track_len c4WitState rfl
  refine ⟨?_, h.1⟩
  rw [h.2.1]
  decide

lemma stop_playback_idem (s : Sequencer) :
    Sequencer.stop_playback (Sequencer.stop_playback s)
      = Sequencer.stop_playback s := by
  by_cases h : s.state = Sequencer.PLAYING
  · simp [Sequencer.stop_playback, h, Sequencer.PLAYING, Sequencer.IDLE]
  · simp [Sequencer.stop_playback, h]

/-- A recording sequencer (bpm 120, 4 beats per bar, loop true, recording
origin at clock 0) whose last recorded event sits at 2300 ms and whose
track length has not been computed yet. -/
def c5CtrState : Sequencer :=
  ⟨Sequencer.RECORDING, [⟨0, 2300, 1, some 62, none⟩], 120, 0, 4, some 0,
   true, none, none, 0, 0⟩

/-- C5 (counterexample): calling `start_playback` while RECORDING does
not apply `stop_recording`'s effects — the track length becomes the raw
last timestamp 2300, not the bar-rounded 4000 that `stop_recording` would
compute, and the recording origin is left in place. -/
theorem c5_start_playback_skips_stop_recording :
    (Sequencer.start_playback c5CtrState true 5000).track_len_ms = 2300
    ∧ (Sequencer.start_playback
        (Sequencer.stop_recording c5CtrState) true 5000).track_len_ms = 4000
    ∧ (2300 : Int) ≠ 4000
    ∧ (Sequencer.start_playback c5CtrState true 5000).rec_t0_ms = some 0 := by
  refine ⟨?_, ?_, by decide, ?_⟩ <;> decide

/-- C5 (amended): `start_recording` first stops playback (it factors
through an idempotent `stop_playback`, so the playback cursors are
cleared) and lands in state RECORDING; `start_playback` lands in state
PLAYING — the single scalar state field rules out any simultaneous
RECORDING+PLAYING — but it does *not* run `stop_recording`: it leaves
`rec_t0_ms` untouched and, when `track_len_ms ≤ 0`, sets the track length
to the raw last event timestamp with no bar rounding. -/
theorem c5_conflicting_activity (s : Sequencer) (now : Int) (l : Bool) :
    Sequencer.start_recording s now
        = Sequencer.start_recording (Sequencer.stop_playback s) now
    ∧ (Sequencer.start_recording s now).state = Sequencer.RECORDING
    ∧ (Sequencer.start_recording s now).state ≠ Sequencer.PLAYING
    ∧ (Sequencer.start_playback s l now).state = Sequencer.PLAYING
    ∧ (Sequencer.start_playback s l now).state ≠ Sequencer.RECORDING
    ∧ (Sequencer.start_playback s l now).track_len_ms
        = (if s.track_len_ms ≤ 0 then Sequencer.lastTimestamp s
           else s.track_len_ms)
    ∧ (Sequencer.start_playback s l now).rec_t0_ms = s.rec_t0_ms := by
  refine ⟨?_, ?_, ?_, ?_, ?_, ?_, ?_⟩
  · simp [Sequencer.start_recording, stop_playback_idem]
  · simp [Sequencer.start_recording]
  · simp [Sequencer.start_recording, Sequencer.RECORDING, Sequencer.PLAYING]
  · by_cases h : s.track_len_ms ≤ 0 <;>
      simp [Sequencer.start_playback, h]
  · by_cases h : s.track_len_ms ≤ 0 <;>
      simp [Sequencer.start_playback, h, Sequencer.RECORDING, Sequencer.PLAYING]
  · by_cases h : s.track_len_ms ≤ 0 <;>
      simp [Sequencer.start_playback, h, Sequencer.lastTimestamp]
  · by_cases h : s.track_len_ms ≤ 0 <;>
      simp [Sequencer.start_playback, h]

/-- Evaluation of `tick` in the non-looping branch: the batch is the
consecutive run of events from the cursor with timestamp `≤ elapsed`; if
the cursor reaches the end the sequencer auto-stops (IDLE, cursors
cleared), otherwise the cursor advances monotonically. -/
lemma tick_nonloop_branch (td : Int → Int → Int) (s : Sequencer)
    (now t0 : Int)
    (hst : s.state = Sequencer.PLAYING) (hpt : s.play_t0_ms = some t0)
    (hne : s.events ≠ []) (hloop : s.loop = false) :
    Sequencer.tick td s now =
      ((s.events.drop s.play_idx).takeWhile (tleq (td now t0)),
       if s.events.length ≤ s.play_idx
            + ((s.events.drop s.play_idx).takeWhile (tleq (td now t0))).length
       then
         { s with state := Sequencer.IDLE, play_t0_ms := none,
                  last_tick_ms := none, play_idx := 0 }
       else
         { s with last_tick_ms := some now,
                  play_idx := s.play_idx
                    + ((s.events.drop s.play_idx).takeWhile
                        (tleq (td now t0))).length }) := by
  obtain ⟨st, ev, bp, qz, bb, rt, lpf, pt, lt, pi, tl⟩ := s
  simp only at hst hpt hne hloop
  subst hst hpt hloop
  simp only [Sequencer.tick, ne_eq, not_true_eq_false, if_false, if_neg hne,
    _advance_eq]
  rw [if_neg (show ¬((false = true) ∧ tl > 0) by simp)]
  by_cases hend : ev.length ≤ pi + ((ev.drop pi).takeWhile (tleq (td now t0))).length
  · rw [if_pos (show pi + ((ev.drop pi).takeWhile (tleq (td now t0))).length
        ≥ ev.length ∧ True from ⟨hend, trivial⟩)]
    rw [if_pos hend]
    simp [Sequencer.stop_playback, Sequencer.PLAYING, Sequencer.IDLE]
  · rw [if_neg (show ¬(pi + ((ev.drop pi).takeWhile (tleq (td now t0))).length
        ≥ ev.length ∧ True) from fun hcon => hend hcon.1)]
    rw [if_neg hend]

/-- An event at track-relative time 200. -/
def ev200 : NoteEvent := ⟨0, 200, 1, some 61, none⟩

/-- An idle sequencer holding events at 0 and 200 ms. -/
def c6Base : Sequencer :=
  { Sequencer.init 120 0 4 with events := [ev0, ev200] }

/-- The sequencer of `c6Base` right after `start_playback(loop=false)` at
clock 0. -/
def c6Play : Sequencer := Sequencer.start_playback c6Base false 0

/-- C6: non-looping auto-stop.  In non-looping playback `tick` collects
the consecutive run of events from the monotonic cursor whose timestamps
are `≤ elapsed`; when the cursor reaches the end of the list the state
automatically becomes IDLE (with playback cursors cleared), otherwise it
stays PLAYING with the cursor advanced.  Concretely, with `loop=false`
and events at 0 and 200 ms, after `start_playback` at clock 0 the call
`tick(250)` returns both events and leaves the state IDLE, and a
subsequent `tick` returns the empty list. -/
theorem c6_nonloop_auto_stop :
    (∀ (td : Int → Int → Int) (s : Sequencer) (now t0 : Int),
      s.state = Sequencer.PLAYING → s.play_t0_ms = some t0 →
      s.events ≠ [] → s.loop = false →
      (Sequencer.tick td s now).1
          = (s.events.drop s.play_idx).takeWhile (tleq (td now t0))
      ∧ (s.events.length ≤ s.play_idx
            + ((s.events.drop s.play_idx).takeWhile (tleq (td now t0))).length →
          (Sequencer.tick td s now).2.state = Sequencer.IDLE)
      ∧ (s.play_idx
            + ((s.events.drop s.play_idx).takeWhile (tleq (td now t0))).length
            < s.events.length →
          (Sequencer.tick td s now).2.state = Sequencer.PLAYING
          ∧ (Sequencer.tick td s now).2.play_idx
              = s.play_idx
                + ((s.events.drop s.play_idx).takeWhile (tleq (td now t0))).length
          ∧ s.play_idx ≤ (Sequencer.tick td s now).2.play_idx))
    ∧ (Sequencer.tick ticks_diff c6Play 250).1 = [ev0, ev200]
    ∧ (Sequencer.tick ticks_diff c6Play 250).2.state = Sequencer.IDLE
    ∧ (Sequencer.tick ticks_diff
        (Sequencer.tick ticks_diff c6Play 250).2 260).1 = [] := by
  have hc6 := tick_nonloop_branch ticks_diff c6Play 250 0 rfl rfl
    (by decide) rfl
  refine ⟨?_, ?_, ?_, ?_⟩
  · intro td s now t0 hst hpt hne hloop
    have h := tick_nonloop_branch td s now t0 hst hpt hne hloop
    rw [h]
    refine ⟨rfl, ?_, ?_⟩
    · intro hend
      rw [if_pos hend]
    · intro hlt
      rw [if_neg (by omega)]
      refine ⟨hst, rfl, ?_⟩
      dsimp only
      omega
  · rw [hc6]
    decide
  · rw [hc6]
    rw [if_pos (by decide)]
  · rw [hc6]
    rw [if_pos (by decide)]
    simp [Sequencer.tick, c6Play, Sequencer.start_playback, c6Base,
      Sequencer.init, Sequencer.IDLE, Sequencer.PLAYING]

/-- Concrete instantiation of the non-looping tick contract at the state
`c6Play` and clock 250. -/
theorem c6_nonloop_witness :
    c6Play.state = Sequencer.PLAYING ∧ c6Play.loop = false
    ∧ (Sequencer.tick ticks_diff c6Play 250).1
        = (c6Play.events.drop c6Play.play_idx).takeWhile
            (tleq (ticks_diff 250 0)) := by
  refine ⟨rfl, rfl, ?_⟩
  exact (c6_nonloop_auto_stop.1 ticks_diff c6Play 250 0 rfl rfl
    (by decide) rfl).1

/-- C7: wraparound-safe time arithmetic.  Every time difference the
sequencer computes flows through the module binding of `ticks_diff`:
`record_event` stores `ticks_diff(now, rec_t0)` (quantized when enabled)
and the looping `tick` derives both phases from `ticks_diff` values.
With the spec-modelled MicroPython `utime.ticks_diff` (modular difference
over the `2^w` counter interpreted as a signed forward interval) the
computed difference equals the true forward interval `d` for any
`0 ≤ d < 2^(w-1)` even when the raw counter wraps through zero, whereas
naive subtraction of the wrapped counter values does not (witnessed at
`w = 30`, origin `2^30 - 5`, interval `10`). -/
theorem c7_wraparound_safe_diff :
    (∀ (td : Int → Int → Int) (s : Sequencer) (ev : NoteEvent) (now t0 : Int),
      (Sequencer.recordedEvent td s ev now t0).timestamp_ms
        = if s.quantize_ms > 0 then _quantize (td now t0) s.quantize_ms
          else td now t0)
    ∧ (∀ (w : Nat) (s : Sequencer) (now t0 pl : Int),
        s.state = Sequencer.PLAYING → s.play_t0_ms = some t0 →
        s.last_tick_ms = some pl → s.events ≠ [] →
        s.loop = true → 0 < s.track_len_ms →
        (Sequencer.tick (utime_ticks_diff w) s now).2.play_idx
          = _bisect_right_by_time s.events
              (utime_ticks_diff w now t0 % s.track_len_ms))
    ∧ (∀ (w : Nat) (t0 d : Int), 0 < w → 0 ≤ d → d < 2 ^ (w - 1) →
        utime_ticks_diff w ((t0 + d) % 2 ^ w) (t0 % 2 ^ w) = d)
    ∧ utime_ticks_diff 30 ((2 ^ 30 - 5 + 10) % 2 ^ 30) ((2 ^ 30 - 5) % 2 ^ 30)
        = 10
    ∧ ticks_diff ((2 ^ 30 - 5 + 10) % 2 ^ 30) ((2 ^ 30 - 5) % 2 ^ 30) ≠ 10 := by
  refine ⟨?_, ?_, ?_, by decide, by decide⟩
  · intro td s ev now t0
    by_cases hq : s.quantize_ms > 0
    · simp [Sequencer.recordedEvent, hq]
    · simp [Sequencer.recordedEvent, hq]
  · intro w s now t0 pl hst hpt hlt hne hloop hL
    rw [tick_loop_branch (utime_ticks_diff w) s now t0 pl hst hpt hlt hne
      hloop hL]
  · intro w t0 d hw hd0 hd
    exact utime_ticks_diff_wrap w hw t0 d hd0 hd

/-- Concrete instantiation of the wraparound theorem: with a 30-bit
counter, a recording that starts 5 ms before the counter wraps and an
event 10 ms later still gets the correct relative timestamp 10. -/
theorem c7_wraparound_witness :
    utime_ticks_diff 30 (((2 ^ 30 - 5) + 10) % 2 ^ 30) ((2 ^ 30 - 5) % 2 ^ 30)
      = 10 := by
  exact c7_wraparound_safe_diff.2.2.1 30 (2 ^ 30 - 5) 10 (by norm_num)
    (by norm_num) (by norm_num)

/-- A mock sequencer that is currently playing and holds one event. -/
def c8CtrState : MockSequencer := ⟨[ev500], false, true, 120, 1⟩

/-- C8 (counterexample): `MockSequencer.import_events_rows` — the only
import/export implementation in the repository — does not reset any state:
importing the exported rows leaves the `playing` flag set (no IDLE reset),
and the mock stores no `track_len_ms` at all, so no track-length
recomputation happens either. -/
theorem c8_import_does_not_reset_state :
    (MockSequencer.import_events_rows c8CtrState
        (MockSequencer.export_events_rows c8CtrState)).playing = true := by
  decide

/-- C8 (amended): importing the exported rows reproduces the event list
in the same order with each magnitude rounded to 4 decimal places
(`to_row` applies `round(mag, 4)`), hence exactly the original list
whenever every magnitude already has at most 4 decimals; the
recording/playing flags, bpm and channel count are untouched. -/
theorem c8_export_import_roundtrip (m : MockSequencer) :
    (MockSequencer.import_events_rows m
        (MockSequencer.export_events_rows m)).events
      = m.events.map (fun e => { e with magnitude := _round4 e.magnitude })
    ∧ (MockSequencer.import_events_rows m
        (MockSequencer.export_events_rows m)).recording = m.recording
    ∧ (MockSequencer.import_events_rows m
        (MockSequencer.export_events_rows m)).playing = m.playing
    ∧ (MockSequencer.import_events_rows m
        (MockSequencer.export_events_rows m)).bpm = m.bpm
    ∧ (MockSequencer.import_events_rows m
        (MockSequencer.export_events_rows m)).channels = m.channels
    ∧ ((∀ e ∈ m.events, _round4 e.magnitude = e.magnitude) →
        (MockSequencer.import_events_rows m
          (MockSequencer.export_events_rows m)).events = m.events) := by
  have hmap : (MockSequencer.import_events_rows m
      (MockSequencer.export_events_rows m)).events
      = m.events.map (fun e => { e with magnitude := _round4 e.magnitude }) := by
    simp only [MockSequencer.import_events_rows, MockSequencer.export_events_rows,
      List.map_map]
    rfl
  refine ⟨hmap, rfl, rfl, rfl, rfl, ?_⟩
  intro h4
  rw [hmap]
  have : ∀ e ∈ m.events,
      ({ e with magnitude := _round4 e.magnitude } : NoteEvent) = e := by
    intro e he
    rw [h4 e he]
  calc m.events.map (fun e => { e with magnitude := _round4 e.magnitude })
      = m.events.map id := List.map_congr_left this
    _ = m.events := List.map_id m.events

lemma _round4_eq_self (k : Int) {q : ℚ} (h : q * 10000 = (k : ℚ)) :
    _round4 q = q := by
  unfold _round4
  rw [show q * 10000 = ((k : Int) : ℚ) from h, round_intCast, ← h]
  exact mul_div_cancel_right₀ q (by norm_num)

/-- A mock sequencer whose single event has a 4-decimal magnitude. -/
def c8WitState : MockSequencer := ⟨[ev100], false, false, 120, 1⟩

/-- Concrete instantiation of the round-trip theorem: with an exactly
representable magnitude the round trip reproduces the event list
verbatim. -/
theorem c8_export_import_roundtrip_witness :
    (MockSequencer.import_events_rows c8WitState
        (MockSequencer.export_events_rows c8WitState)).events
      = c8WitState.events := by
  apply (c8_export_import_roundtrip c8WitState).2.2.2.2.2
  intro e he
  have he2 : e = ev100 := by simpa [c8WitState] using he
  subst he2
  exact _round4_eq_self 10000 (by norm_num [ev100])

/-- C9 (counterexample): the constructor does not clamp `bpm` — building
a sequencer with `bpm = 0` stores 0, so the configured bpm is below 1
right after construction, contradicting "every way of supplying a
configuration value clamps bpm below 1 up to 1". -/
theorem c9_init_does_not_clamp_bpm :
    (Sequencer.init 0 0 4).bpm = 0 ∧ ¬ 1 ≤ (Sequencer.init 0 0 4).bpm := by
  decide

/-- C9 (amended): the constructor clamps `quantize_ms` (to `≥ 0`) and
`beats_per_bar` (to `≥ 1`) but stores `bpm` unclamped; the setters
`set_bpm` and `set_quantize` do clamp, so once `bpm ≥ 1` and
`quantize_ms ≥ 0` hold (e.g. after constructing with a valid bpm or after
any `set_bpm` call) every further sequence of configuration calls keeps
`bpm ≥ 1` and `quantize_ms ≥ 0`. -/
theorem c9_config_clamping (b q bb x : Int) (s : Sequencer) :
    0 ≤ (Sequencer.init b q bb).quantize_ms
    ∧ 1 ≤ (Sequencer.init b q bb).beats_per_bar
    ∧ (Sequencer.init b q bb).bpm = b
    ∧ 1 ≤ (Sequencer.set_bpm s x).bpm
    ∧ 0 ≤ (Sequencer.set_quantize s x).quantize_ms
    ∧ ∀ ops : List (Bool × Int), 1 ≤ s.bpm → 0 ≤ s.quantize_ms →
        1 ≤ (ops.foldl
              (fun t op => if op.1 then Sequencer.set_bpm t op.2
                           else Sequencer.set_quantize t op.2) s).bpm
        ∧ 0 ≤ (ops.foldl
              (fun t op => if op.1 then Sequencer.set_bpm t op.2
                           else Sequencer.set_quantize t op.2) s).quantize_ms := by
  refine ⟨le_max_left 0 q, le_max_left 1 bb, rfl, le_max_left 1 x,
    le_max_left 0 x, ?_⟩
  intro ops
  induction ops generalizing s with
  | nil => exact fun h1 h2 => ⟨h1, h2⟩
  | cons op rest ih =>
    intro h1 h2
    simp only [List.foldl_cons]
    by_cases hop : op.1
    · rw [if_pos hop]
      exact ih (Sequencer.set_bpm s op.2) (le_max_left 1 op.2) h2
    · rw [if_neg hop]
      exact ih (Sequencer.set_quantize s op.2) h1 (le_max_left 0 op.2)

/-- Concrete instantiation of the clamping theorem: starting from a valid
configuration, setting bpm to −3 and quantize to −7 leaves bpm = 1 and
quantize = 0. -/
theorem c9_config_clamping_witness :
    1 ≤ (([(true, -3), (false, -7)] : List (Bool × Int)).foldl
          (fun t op => if op.1 then Sequencer.set_bpm t op.2
                       else Sequencer.set_quantize t op.2)
          (Sequencer.init 120 5 4)).bpm
    ∧ 0 ≤ (([(true, -3), (false, -7)] : List (Bool × Int)).foldl
          (fun t op => if op.1 then Sequencer.set_bpm t op.2
                       else Sequencer.set_quantize t op.2)
          (Sequencer.init 120 5 4)).quantize_ms := by
  exact (c9_config_clamping 120 5 4 0 (Sequencer.init 120 5 4)).2.2.2.2.2
    [(true, -3), (false, -7)] (by decide) (by decide)

/-- C10: the stored result of `record_event` never reads the input
event's `timestamp_ms` — two calls in the same state at the same clock
whose inputs agree on channel, magnitude, pitch and duration (but may
differ arbitrarily in `timestamp_ms`) produce identical sequencer states,
because the stored timestamp is derived solely from
`ticks_diff(now, rec_t0)` (plus optional quantization). -/
theorem c10_input_timestamp_ignored (td : Int → Int → Int) (s : Sequencer)
    (now : Int) (e1 e2 : NoteEvent)
    (hch : e1.channel = e2.channel) (hm : e1.magnitude = e2.magnitude)
    (hp : e1.pitch = e2.pitch) (hd : e1.duration_ms = e2.duration_ms) :
    Sequencer.record_event td s e1 now = Sequencer.record_event td s e2 now := by
  obtain ⟨c1, t1, m1, p1, d1⟩ := e1
  obtain ⟨c2, t2, m2, p2, d2⟩ := e2
  simp only at hch hm hp hd
  subst hch hm hp hd
  rfl

/-- Concrete instantiation of timestamp independence: two input events
differing only in `timestamp_ms` (999 vs 0) are recorded identically. -/
theorem c10_input_timestamp_ignored_witness :
    (⟨0, 999, 1, some 60, none⟩ : NoteEvent).timestamp_ms
        ≠ (⟨0, 0, 1, some 60, none⟩ : NoteEvent).timestamp_ms
    ∧ Sequencer.record_event ticks_diff c3WitState ⟨0, 999, 1, some 60, none⟩ 300
        = Sequencer.record_event ticks_diff c3WitState ⟨0, 0, 1, some 60, none⟩ 300 := by
  refine ⟨by decide, ?_⟩
  exact c10_input_timestamp_ignored ticks_diff c3WitState 300
    ⟨0, 999, 1, some 60, none⟩ ⟨0, 0, 1, some 60, none⟩ rfl rfl rfl rfl
